import Mathlib

/-!
Verification of the FSG Viterbi search core
(`src/pocketsphinx/src/libpocketsphinx/fsg_search.c`) against its
natural-language specification.

The embedding below translates the decoder's data model and per-frame
operations into executable Lean definitions.  Machine integers (`int32`)
are modelled as `Int`; the C `float` `beam_factor` is modelled as an exact
rational; collaborator modules that are not part of the repository's source
(the HMM context, `fsg_history.c`, `fsg_lextree.c`, the lattice module) are
modelled from the specification's description of their contracts, and each
such definition says so in its doc comment.
-/

/-- An FSG arc (`fsg_link_t`): `(from_state, to_state, logs2prob, wid)`.
`wid = -1` denotes a null (epsilon) arc. -/
structure FsgLink where
  from_state : Nat
  to_state : Nat
  logs2prob : Int
  wid : Int
deriving DecidableEq, Repr

/-- A word-exit history entry (`fsg_hist_entry_t`): the exited arc (none only
for the utterance-root dummy), the exit frame, path score, predecessor index,
left-context phone and right-context bitset (a list of 32-bit words). -/
structure HistEntry where
  fsglink : Option FsgLink
  frame : Int
  score : Int
  pred : Int
  lc : Nat
  rc : List Nat
deriving DecidableEq, Repr

/-- The FSG model collaborator (`fsg_model_t`), reduced to the fields the
search core reads: state count, start/final states and the transitive-closed
null-transition table `null_trans s d`. -/
structure FsgModel where
  n_state : Nat
  start_state : Nat
  final_state : Nat
  null_trans : Nat → Nat → Option FsgLink

/-- A lextree node (`fsg_pnode_t`): context-independent phone id `ci_ext`,
context bitset `ctxt`, entering log-probability, leaf flag, successor node
ids, and (for leaves) the FSG arc realized. -/
structure FsgPnode where
  ci_ext : Nat
  ctxt : List Nat
  logs2prob : Int
  leaf : Bool
  succs : List Nat
  fsglink : Option FsgLink

/-- Modelled from the spec: the dynamic token state of one HMM instance
(`hmm_t`), supporting `best_score`, `in_score`/`out_score`, `out_history`,
`frame` and `enter` (spec section 3, "HMM instance"). -/
structure HmmT where
  frame : Int
  in_score : Int
  bestscore : Int
  out_score : Int
  in_history : Int
  out_history : Int
deriving DecidableEq, Repr

/-- Modelled from the spec: `enter(score, history, frame)` (re-)activates an
HMM with a new token, installing the entry score, history id and frame. -/
def hmm_enter (h : HmmT) (score hist frame : Int) : HmmT :=
  { h with in_score := score, in_history := hist, frame := frame }

/-- Modelled from the spec: `WORST_SCORE`, a log score well below any
reachable state score (the value used by the reference headers). -/
def WORST_SCORE : Int := -939524096

/-- Modelled from the spec: `fsg_psubtree_pnode_deactivate` resets a node's
HMM — all token state cleared and the frame field reset. -/
def hmmClearVal : HmmT :=
  { frame := -1, in_score := WORST_SCORE, bestscore := WORST_SCORE,
    out_score := WORST_SCORE, in_history := -1, out_history := -1 }

/-- Pointwise update of a map of HMMs. -/
def updFn (f : Nat → HmmT) (i : Nat) (h : HmmT) : Nat → HmmT :=
  fun j => if j = i then h else f j

/-- A record of one `hmm_enter` performed on a lextree root during
`fsg_search_word_trans`: which history entry fed it, which root, and the
entering score. -/
structure EnterEv where
  bpidx : Nat
  root : Nat
  newscore : Int
deriving DecidableEq, Repr

/-- The decoder's mutable state (`fsg_search_t`): current frame, best score
of the frame, the three live beams, their originals and the adaptive factor,
the per-node HMM map, the two active lists, the history table with the
frame's commit mark, and the utterance-final flag.  `enters` is a ghost
trace of root activations used to state the cross-word invariant. -/
structure SearchSt where
  frame : Int
  bestscore : Int
  beam_factor : ℚ
  beam : Int
  pbeam : Int
  wbeam : Int
  beam_orig : Int
  pbeam_orig : Int
  wbeam_orig : Int
  hmms : Nat → HmmT
  pnode_active : List Nat
  pnode_active_next : List Nat
  history : List HistEntry
  bpidx_start : Nat
  final : Bool
  enters : List EnterEv

/-- The read-only collaborators one decoder instance walks: the FSG, the
lextree (node map, per-state root lists, node count), the dictionary
accessors used by leaf exits, the context-bitset width in 32-bit words and
the silence phone id. -/
structure FsgDecoderEnv where
  fsg : FsgModel
  pnodes : Nat → FsgPnode
  rootList : Nat → List Nat
  n_pnode : Nat
  word_str : Int → String
  is_filler : Int → Bool
  dict_to_id : String → Int
  dict_pronlen : Int → Int
  ctxtSize : Nat
  silcipid : Nat

/-- The bitset membership test `bv[x >> 5] & (1 << (x & 0x001f))` used for
both context tests in `fsg_search_word_trans`. -/
def ctxtTest (bv : List Nat) (x : Nat) : Bool :=
  Nat.testBit (bv.getD (x / 32) 0) (x % 32)

/-- Modelled from the spec: `fsg_pnode_add_all_ctxt` produces a context
bitset with every bit set ("applies to all right contexts"). -/
def allCtxt (k : Nat) : List Nat :=
  List.replicate k (2 ^ 32 - 1)

/-- Truncation toward zero of a rational, the effect of the C cast
`(int32)` applied to a float product. -/
def ratTruncToInt (q : ℚ) : Int :=
  q.num.tdiv (q.den : Int)

/-- Destination FSG state of a history entry: `fl ? fl->to_state :
fsg_model_start_state(fsg)`. -/
def histDest (fsg : FsgModel) (e : HistEntry) : Nat :=
  match e.fsglink with
  | some l => l.to_state
  | none => fsg.start_state

/-- The beam-adaptation tail of `fsg_search_hmm_eval` (fsg_search.c:455-477):
if `maxhmmpf` is enabled and the number `n` of HMMs evaluated this frame
exceeds it, multiply `beam_factor` by 0.9 — but only when the factor is
still above the 0.1 floor — and rescale the three live beams; otherwise
reset the factor to 1.0 and the beams to their originals. -/
def beamAdjust (maxhmmpf n : Int) (st : SearchSt) : SearchSt :=
  if maxhmmpf ≠ -1 ∧ n > maxhmmpf then
    if st.beam_factor > 1 / 10 then
      let bf := st.beam_factor * (9 / 10)
      { st with beam_factor := bf,
                beam := ratTruncToInt ((st.beam_orig : ℚ) * bf),
                pbeam := ratTruncToInt ((st.pbeam_orig : ℚ) * bf),
                wbeam := ratTruncToInt ((st.wbeam_orig : ℚ) * bf) }
    else st
  else
    { st with beam_factor := 1, beam := st.beam_orig,
              pbeam := st.pbeam_orig, wbeam := st.wbeam_orig }

/-- The entries `fsg_search_null_prop` (fsg_search.c:634-680) appends: for
every already-committed entry with index in `[bpidx_start, n)` and every
state `d` with a null transition from the entry's destination state, a new
entry with the entry's frame and contexts, the summed score and the source
index as predecessor, kept iff the score passes `bestscore + wbeam`. -/
def fsg_search_null_prop_new (fsg : FsgModel) (bestscore wbeam : Int)
    (bpidxStart : Nat) (hist : List HistEntry) : List HistEntry :=
  (List.range' bpidxStart (hist.length - bpidxStart)).flatMap fun bpidx =>
    match hist.get? bpidx with
    | none => []
    | some e =>
      (List.range fsg.n_state).filterMap fun d =>
        match fsg.null_trans (histDest fsg e) d with
        | none => none
        | some l =>
          if bestscore + wbeam ≤ e.score + l.logs2prob then
            some { fsglink := some l, frame := e.frame,
                   score := e.score + l.logs2prob, pred := (bpidx : Int),
                   lc := e.lc, rc := e.rc }
          else none

/-- `fsg_search_null_prop`: the history with the propagated entries
appended (`fsg_history_entry_add` is modelled from the spec as an
append to the table). -/
def fsg_search_null_prop (fsg : FsgModel) (bestscore wbeam : Int)
    (bpidxStart : Nat) (hist : List HistEntry) : List HistEntry :=
  hist ++ fsg_search_null_prop_new fsg bestscore wbeam bpidxStart hist

/-- Modelled from the spec: `fsg_history_end_frame` makes the frame's
tentative entries permanent; with entries modelled as immediately appended
it is the identity on the decoder state. -/
def fsg_history_end_frame (st : SearchSt) : SearchSt := st

/-- `fsg_search_pnode_exit` (fsg_search.c:521-575): emit the leaf's word
exit into the history.  Filler words and single-phone words (per the
dictionary) carry an all-ones right-context bitset; other words carry the
leaf's configured `ctxt`; `lc` is the leaf's phone, score and predecessor
come from the HMM's exit token. -/
def fsg_search_pnode_exit (env : FsgDecoderEnv) (st : SearchSt) (pid : Nat) : SearchSt :=
  let p := env.pnodes pid
  match p.fsglink with
  | none => st
  | some fl =>
    let h := st.hmms pid
    let e : HistEntry :=
      if env.is_filler fl.wid = true ∨
         env.dict_pronlen (env.dict_to_id (env.word_str fl.wid)) = 1 then
        { fsglink := some fl, frame := st.frame, score := h.out_score,
          pred := h.out_history, lc := p.ci_ext, rc := allCtxt env.ctxtSize }
      else
        { fsglink := some fl, frame := st.frame, score := h.out_score,
          pred := h.out_history, lc := p.ci_ext, rc := p.ctxt }
    { st with history := st.history ++ [e] }

/-- One child transition of `fsg_search_pnode_trans` (fsg_search.c:502-517):
propagate the parent's exit token into a child whose new score passes the
state beam and beats the child's current entry score; a child not yet
scheduled for the next frame is pushed onto the next active list. -/
def transChild (env : FsgDecoderEnv) (h : HmmT) (nf thresh : Int)
    (s : SearchSt) (childId : Nat) : SearchSt :=
  let newscore := h.out_score + (env.pnodes childId).logs2prob
  let ch := s.hmms childId
  if thresh ≤ newscore ∧ ch.in_score < newscore then
    let s1 := if ch.frame < nf then
                { s with pnode_active_next := childId :: s.pnode_active_next }
              else s
    { s1 with hmms := updFn s1.hmms childId (hmm_enter ch newscore h.out_history nf) }
  else s

/-- `fsg_search_pnode_trans` (fsg_search.c:487-518): propagate an internal
node's exit token into each of its children. -/
def fsg_search_pnode_trans (env : FsgDecoderEnv) (st : SearchSt) (pid : Nat) : SearchSt :=
  (env.pnodes pid).succs.foldl
    (transChild env (st.hmms pid) (st.frame + 1) (st.bestscore + st.beam)) st

/-- `fsg_search_hmm_prune_prop` (fsg_search.c:584-628): walk the active
list; every HMM surviving the state beam is kept active for the next frame
(promoting its frame and pushing it once onto the next active list), and if
its exit score also passes the phone beam (internal node) or the word beam
(leaf) the exit is propagated to children or emitted as a word exit. -/
def prunePromote (s : SearchSt) (pid : Nat) : SearchSt :=
  if (s.hmms pid).frame = s.frame then
    { s with hmms := updFn s.hmms pid { s.hmms pid with frame := s.frame + 1 },
             pnode_active_next := pid :: s.pnode_active_next }
  else s

def pruneStep (env : FsgDecoderEnv) (s : SearchSt) (pid : Nat) : SearchSt :=
  if s.bestscore + s.beam ≤ (s.hmms pid).bestscore then
    if (env.pnodes pid).leaf = false then
      if (prunePromote s pid).bestscore + (prunePromote s pid).pbeam ≤
          (s.hmms pid).out_score then
        fsg_search_pnode_trans env (prunePromote s pid) pid
      else prunePromote s pid
    else
      if (prunePromote s pid).bestscore + (prunePromote s pid).wbeam ≤
          (s.hmms pid).out_score then
        fsg_search_pnode_exit env (prunePromote s pid) pid
      else prunePromote s pid
  else s

def fsg_search_hmm_prune_prop (env : FsgDecoderEnv) (st : SearchSt) : SearchSt :=
  st.pnode_active.foldl (pruneStep env) st

/-- `fsg_search_hmm_eval` (fsg_search.c:411-484): if the active list is
empty, log and return; otherwise evaluate every active HMM (the Viterbi
step `hmm_vit_eval` is the abstract collaborator `vitEval`), record the
frame's best score, and run the beam adaptation on the evaluation count. -/
def evalStep (vitEval : HmmT → HmmT) (acc : SearchSt × Int) (pid : Nat) :
    SearchSt × Int :=
  let h2 := vitEval (acc.1.hmms pid)
  ({ acc.1 with hmms := updFn acc.1.hmms pid h2 }, max acc.2 h2.bestscore)

def fsg_search_hmm_eval (vitEval : HmmT → HmmT) (maxhmmpf : Int) (st : SearchSt) : SearchSt :=
  if st.pnode_active = [] then st
  else
    let p := st.pnode_active.foldl (evalStep vitEval) (st, WORST_SCORE)
    beamAdjust maxhmmpf (st.pnode_active.length : Int)
      { p.1 with bestscore := p.2 }

/-- One root transition of `fsg_search_word_trans` (fsg_search.c:717-756):
admit the cross-word transition from history entry `e` into root `rootId`
iff the root's context bitset contains `e.lc` and `e`'s right-context
bitset contains the root's phone, and the new score passes the state beam
and beats the root HMM's entry score; a passing transition enters the root
HMM (recorded in the `enters` trace) and activates it if not yet scheduled. -/
def wordTransRoot (env : FsgDecoderEnv) (bpidx : Nat) (e : HistEntry)
    (s : SearchSt) (rootId : Nat) : SearchSt :=
  let root := env.pnodes rootId
  if ctxtTest root.ctxt e.lc = true ∧ ctxtTest e.rc root.ci_ext = true then
    let newscore := e.score + root.logs2prob
    let h := s.hmms rootId
    if s.bestscore + s.beam ≤ newscore ∧ h.in_score < newscore then
      let s1 := if h.frame < s.frame + 1 then
                  { s with pnode_active_next := rootId :: s.pnode_active_next }
                else s
      { s1 with
        hmms := updFn s1.hmms rootId (hmm_enter h newscore (bpidx : Int) (s.frame + 1)),
        enters := s1.enters ++ [{ bpidx := bpidx, root := rootId, newscore := newscore }] }
    else s
  else s

/-- `fsg_search_word_trans` (fsg_search.c:687-758): propagate every history
entry created this frame across its destination FSG state into the lextree
roots attached to that state. -/
def fsg_search_word_trans (env : FsgDecoderEnv) (st : SearchSt) : SearchSt :=
  (List.range' st.bpidx_start (st.history.length - st.bpidx_start)).foldl
    (fun s bpidx =>
      match s.history.get? bpidx with
      | none => s
      | some e => (env.rootList (histDest env.fsg e)).foldl (wordTransRoot env bpidx e) s)
    st

/-- The deactivation sweep at the end of `fsg_search_step`
(fsg_search.c:818-829): reset every active node whose HMM was not carried
to the next frame. -/
def deactStep (s : SearchSt) (pid : Nat) : SearchSt :=
  if (s.hmms pid).frame = s.frame then
    { s with hmms := updFn s.hmms pid hmmClearVal }
  else s

/-- Mark the backpointer table for the current frame:
`fsgs->bpidx_start = fsg_history_n_entries(fsgs->history)`. -/
def markBpidxStart (st : SearchSt) : SearchSt :=
  { st with bpidx_start := st.history.length }

/-- The null-propagation stage of `fsg_search_step` acting on the decoder
state: replace the history by `fsg_search_null_prop` of it. -/
def nullPropSt (env : FsgDecoderEnv) (st : SearchSt) : SearchSt :=
  { st with history := fsg_search_null_prop env.fsg st.bestscore st.wbeam
                         st.bpidx_start st.history }

/-- The deactivation sweep over the current active list
(fsg_search.c:818-829). -/
def fsg_search_step_deact (st : SearchSt) : SearchSt :=
  st.pnode_active.foldl deactStep st

/-- The active-list swap and frame advance ending `fsg_search_step`
(fsg_search.c:831-839). -/
def fsg_search_step_swap (st : SearchSt) : SearchSt :=
  { st with pnode_active := st.pnode_active_next, pnode_active_next := [],
            frame := st.frame + 1 }

/-- The body of `fsg_search_step` once a frame is known to exist: mark the
history, evaluate the active HMMs, prune and propagate (committing word
exits), null-propagate (committing again), perform cross-word transitions,
deactivate nodes left at the current frame, swap the active lists and
advance the frame. -/
def fsg_search_step_frame (env : FsgDecoderEnv) (vitEval : HmmT → HmmT)
    (maxhmmpf : Int) (st : SearchSt) : SearchSt :=
  fsg_search_step_swap
    (fsg_search_step_deact
      (fsg_search_word_trans env
        (fsg_history_end_frame
          (nullPropSt env
            (fsg_history_end_frame
              (fsg_search_hmm_prune_prop env
                (fsg_search_hmm_eval vitEval maxhmmpf (markBpidxStart st))))))))

/-- `fsg_search_step` (fsg_search.c:761-842): returns `(0, st)` when the
acoustic model has no new frame, and otherwise runs the frame body and
returns 1. -/
def fsg_search_step (env : FsgDecoderEnv) (vitEval : HmmT → HmmT)
    (maxhmmpf : Int) (nFeatFrame : Nat) (st : SearchSt) : Int × SearchSt :=
  if nFeatFrame = 0 then (0, st)
  else (1, fsg_search_step_frame env vitEval maxhmmpf st)

/-- `fsg_search_start` (fsg_search.c:850-899): reset the beams and the
adaptive factor, drain the history, insert the dummy entry
`{fl = null, frame = -1, score = 0, pred = -1, lc = sil, rc = all}` at
index 0, run null propagation and cross-word transitions from it, swap the
active lists and set the frame to 0. -/
def fsg_search_start (env : FsgDecoderEnv) (st : SearchSt) : SearchSt :=
  let dummy : HistEntry :=
    { fsglink := none, frame := -1, score := 0, pred := -1,
      lc := env.silcipid, rc := allCtxt env.ctxtSize }
  let st1 := { st with beam_factor := (1 : ℚ), beam := st.beam_orig,
                       pbeam := st.pbeam_orig, wbeam := st.wbeam_orig,
                       final := false, frame := -1, bestscore := 0,
                       history := [dummy], bpidx_start := 0 }
  let st2 := { st1 with history := fsg_search_null_prop env.fsg st1.bestscore st1.wbeam
                                     st1.bpidx_start st1.history }
  let st3 := fsg_search_word_trans env st2
  { st3 with pnode_active := st3.pnode_active_next, pnode_active_next := [],
             frame := st3.frame + 1 }

/-- `fsg_search_finish` (fsg_search.c:904-948): deactivate every node on
both active lists, free the lists and mark the utterance final. -/
def fsg_search_finish (st : SearchSt) : SearchSt :=
  let st1 := st.pnode_active.foldl deactStep st
  let st2 := st1.pnode_active_next.foldl deactStep st1
  { st2 with pnode_active := [], pnode_active_next := [], final := true }

/-- The outcome of `fsg_search_find_exit` (fsg_search.c:951-1014) as
observed behaviour: the function may fail to terminate (`diverge`, the
backward scan loop never exits), dereference the null `fsglink` of the
dummy entry (`crash`), or return a back-pointer index. -/
inductive FEResult where
  | diverge : FEResult
  | crash : FEResult
  | ret : Int → FEResult
deriving DecidableEq, Repr

/-- The initial backward-scan loop of `fsg_search_find_exit`
(fsg_search.c:965-971), run with `fuel` iterations: the body reads the
entry at `bpidx` and breaks with its frame when it is at most `frameIdx`;
the loop variable is never changed by the body.  `none` means the loop did
not exit within `fuel` iterations. -/
def findExitScan (hist : List HistEntry) (frameIdx : Int) (bpidx : Nat) :
    Nat → Option Int
  | 0 => none
  | fuel + 1 =>
    match hist.get? bpidx with
    | none => none
    | some e =>
      if e.frame ≤ frameIdx then some e.frame
      else findExitScan hist frameIdx bpidx fuel

/-- One body of the best-exit loop of `fsg_search_find_exit`
(fsg_search.c:981-1002): when the entry's score beats the running best, the
final-state constraint is checked — dereferencing the entry's `fsglink`,
which crashes (`none`) on the dummy entry when `final` is set. -/
def feUpdate (finalState : Nat) (final : Bool) (e : HistEntry) (bpidx : Int)
    (bestscore besthist : Int) : Option (Int × Int) :=
  if bestscore < e.score then
    if final then
      match e.fsglink with
      | none => none
      | some l =>
        if l.to_state = finalState then some (e.score, bpidx)
        else some (bestscore, besthist)
    else some (e.score, bpidx)
  else some (bestscore, besthist)

/-- The best-exit loop of `fsg_search_find_exit`: walk `bpidx` down while
the entry frame stays `lastFrm`, keeping the best qualifying
`(score, index)`; `none` is the null dereference of the dummy entry. -/
def findExitBest (hist : List HistEntry) (finalState : Nat) (final : Bool)
    (lastFrm : Int) : Nat → Int → Int → Option (Int × Int)
  | 0, bs0, bh0 =>
    match hist.get? 0 with
    | none => some (bs0, bh0)
    | some e => feUpdate finalState final e 0 bs0 bh0
  | b + 1, bs0, bh0 =>
    match hist.get? (b + 1) with
    | none => some (bs0, bh0)
    | some e =>
      match feUpdate finalState final e ((b : Int) + 1) bs0 bh0 with
      | none => none
      | some (bs, bh) =>
        match hist.get? b with
        | none => some (bs, bh)
        | some e2 =>
          if e2.frame = lastFrm then findExitBest hist finalState final lastFrm b bs bh
          else some (bs, bh)

/-- `INT_MIN`, the initial best score of the best-exit loop. -/
def intMin : Int := -2147483648

/-- `fsg_search_find_exit` (fsg_search.c:951-1014): resolve `frame_idx`,
scan backward (with `fuel` bounding the unproductive loop), return the
index unchanged when at most 0, otherwise pick the best word exit in the
found frame, returning -1 when no entry qualifies. -/
def fsg_search_find_exit (fuel : Nat) (fsg : FsgModel) (hist : List HistEntry)
    (curFrame frameIdx0 : Int) (final : Bool) : FEResult :=
  let frameIdx := if frameIdx0 = -1 then curFrame - 1 else frameIdx0
  let bpidx : Int := (hist.length : Int) - 1
  if bpidx ≤ 0 then .ret bpidx
  else
    match findExitScan hist frameIdx bpidx.toNat fuel with
    | none => .diverge
    | some lastFrm =>
      match findExitBest hist fsg.final_state final lastFrm bpidx.toNat intMin (-1) with
      | none => .crash
      | some (_, bh) => if bh = -1 then .ret (-1) else .ret bh

/-- A word lattice as the caching test of `fsg_search_lattice` sees it: the
frame count it was built over (`dag->n_frames`). -/
structure LatDag where
  n_frames : Int
deriving DecidableEq, Repr

/-- The slice of the decoder state `fsg_search_lattice` reads and writes:
the cached dag and the current frame. -/
structure LatSt where
  dag : Option LatDag
  frame : Int
deriving DecidableEq, Repr

/-- The rebuild path of `fsg_search_lattice` (fsg_search.c:1414-1569): free
the old dag, build a new one from the history (the construction itself is
the abstract collaborator `build`), and on success install it as the cached
dag. -/
def fsg_search_lattice_build (build : LatSt → Option LatDag) (st : LatSt) :
    Option LatDag × LatSt :=
  let st1 := { st with dag := none }
  match build st1 with
  | some d => (some d, { st1 with dag := some d })
  | none => (none, st1)

/-- `fsg_search_lattice` (fsg_search.c:1398-1417): if a dag exists and was
built over the current number of frames, return it unchanged; otherwise
rebuild. -/
def fsg_search_lattice (build : LatSt → Option LatDag) (st : LatSt) :
    Option LatDag × LatSt :=
  match st.dag with
  | some d =>
    if d.n_frames = st.frame then (some d, st)
    else fsg_search_lattice_build build st
  | none => fsg_search_lattice_build build st

/-- The FSG registry state read and written by `fsg_set_remove_byname` and
`fsg_set_select`: the name table, the current-FSG pointer, the lextree
pointer (none = freed/null) and the history module's FSG binding. -/
structure FsgSetSt where
  fsgs : List (String × Nat)
  fsg : Option Nat
  lextree : Option Nat
  hist_fsg : Option Nat
deriving DecidableEq, Repr

/-- `hash_table_lookup` on the registry's name table. -/
def hashLookup (l : List (String × Nat)) (k : String) : Option Nat :=
  (l.find? (fun p => p.1 = k)).map Prod.snd

/-- `hash_table_delete` on the registry's name table. -/
def hashDelete (l : List (String × Nat)) (k : String) : List (String × Nat) :=
  l.filter (fun p => ¬ (p.1 = k))

/-- `fsg_set_remove_byname` (fsg_search.c:298-321): look the name up
(failing silently with null), delete it from the table, and only when it
was the currently active FSG also free the lextree, clear the history FSG
binding and null the current-FSG pointer. -/
def fsg_set_remove_byname (st : FsgSetSt) (key : String) : Option Nat × FsgSetSt :=
  match hashLookup st.fsgs key with
  | none => (none, st)
  | some oldfsg =>
    let st1 := { st with fsgs := hashDelete st.fsgs key }
    if st1.fsg = some oldfsg then
      (some oldfsg, { st1 with lextree := none, hist_fsg := none, fsg := none })
    else (some oldfsg, st1)

/-- `fsg_set_select` (fsg_search.c:351-363): look the name up (failing with
null) and set the current-FSG pointer to it — nothing else changes. -/
def fsg_set_select (st : FsgSetSt) (name : String) : Option Nat × FsgSetSt :=
  match hashLookup st.fsgs name with
  | none => (none, st)
  | some f => (some f, { st with fsg := some f })

/-- A fold preserves a property when every step taken from an element of
the list does. -/
theorem foldl_preserve {α β : Type _} (P : β → Prop) (f : β → α → β) :
    ∀ (l : List α) (b : β), P b → (∀ b2 a, a ∈ l → P b2 → P (f b2 a)) →
      P (l.foldl f b) := by
  intro l
  induction l with
  | nil => intro b hb _; exact hb
  | cons a l ih =>
    intro b hb hstep
    exact ih (f b a) (hstep b a (List.mem_cons_self a l) hb)
      (fun b2 x hx h2 => hstep b2 x (List.mem_cons_of_mem a hx) h2)

/-- The backward-scan loop body never changes `bpidx`, so when the entry it
keeps reading has a frame above `frameIdx` the loop runs out of any fuel. -/
theorem findExitScan_stuck (hist : List HistEntry) (frameIdx : Int) (bpidx : Nat)
    (e : HistEntry) (hget : hist.get? bpidx = some e) (hgt : frameIdx < e.frame) :
    ∀ fuel, findExitScan hist frameIdx bpidx fuel = none := by
  intro fuel
  induction fuel with
  | zero => rfl
  | succ fuel ih =>
    show findExitScan hist frameIdx bpidx (fuel + 1) = none
    unfold findExitScan
    rw [hget]
    show (if e.frame ≤ frameIdx then some e.frame
          else findExitScan hist frameIdx bpidx fuel) = none
    rw [if_neg (by omega : ¬ e.frame ≤ frameIdx)]
    exact ih

/-- Every phone below the bitset width is a member of the all-ones context
bitset. -/
theorem ctxtTest_allCtxt (k i : Nat) (hi : i < 32 * k) :
    ctxtTest (allCtxt k) i = true := by
  have hdiv : i / 32 < k := by omega
  have hmod : i % 32 < 32 := Nat.mod_lt _ (by omega)
  unfold ctxtTest allCtxt
  rw [List.getD, List.get?_eq_getElem?, List.getElem?_replicate, if_pos hdiv]
  show Nat.testBit (2 ^ 32 - 1) (i % 32) = true
  rw [Nat.testBit_two_pow_sub_one]
  simpa using hmod

/-- A one-state FSG with no transitions, used to exercise `find_exit`. -/
def fsgTriv : FsgModel :=
  { n_state := 1, start_state := 0, final_state := 0, null_trans := fun _ _ => none }

/-- A history whose newest entry exited at frame 7: the dummy plus one word
exit. -/
def histC1 : List HistEntry :=
  [ { fsglink := none, frame := -1, score := 0, pred := -1, lc := 0, rc := [] },
    { fsglink := some { from_state := 0, to_state := 0, logs2prob := -2, wid := 0 },
      frame := 7, score := 5, pred := 0, lc := 0, rc := [] } ]

/-- A history whose newest entry exited at frame 5: the dummy plus one word
exit. -/
def histC10 : List HistEntry :=
  [ { fsglink := none, frame := -1, score := 0, pred := -1, lc := 0, rc := [] },
    { fsglink := some { from_state := 0, to_state := 0, logs2prob := -2, wid := 0 },
      frame := 5, score := 3, pred := 0, lc := 0, rc := [] } ]

/-- C1.  Code bug: `fsg_search_find_exit` is claimed to scan the history
backward for the first entry with `frame ≤ frame_idx` and then return the
index of the best qualifying exit in that frame (or a non-positive index).
On the code, the scan loop (fsg_search.c:965-971) never decrements `bpidx`:
with the two-entry history `histC1` (newest frame 7) and `frame_idx = 2`
the function diverges for every loop bound instead of returning anything. -/
theorem fsg_search_find_exit_diverges_on_future_frame (fuel : Nat) :
    fsg_search_find_exit fuel fsgTriv histC1 9 2 false = FEResult.diverge := by
  have hs : findExitScan histC1 2 1 fuel = none :=
    findExitScan_stuck histC1 2 1
      { fsglink := some { from_state := 0, to_state := 0, logs2prob := -2, wid := 0 },
        frame := 7, score := 5, pred := 0, lc := 0, rc := [] }
      rfl (by norm_num) fuel
  have hb : fsg_search_find_exit fuel fsgTriv histC1 9 2 false =
      match findExitScan histC1 2 1 fuel with
      | none => FEResult.diverge
      | some lastFrm =>
        match findExitBest histC1 fsgTriv.final_state false lastFrm 1 intMin (-1) with
        | none => FEResult.crash
        | some (_, bh) => if bh = -1 then FEResult.ret (-1) else FEResult.ret bh := rfl
  rw [hb, hs]

/-- C10.  Code bug: the initial backward-scan loop of
`fsg_search_find_exit` is claimed to terminate, in particular when the
history has more than one entry and the newest entry's frame (5) exceeds
`frame_idx` (3).  The loop body never changes `bpidx`, so on `histC10` it
exhausts every fuel bound: it never terminates. -/
theorem find_exit_scan_loop_never_terminates (fuel : Nat) :
    findExitScan histC10 3 1 fuel = none :=
  findExitScan_stuck histC10 3 1
    { fsglink := some { from_state := 0, to_state := 0, logs2prob := -2, wid := 0 },
      frame := 5, score := 3, pred := 0, lc := 0, rc := [] }
    rfl (by norm_num) fuel

/-- A two-state FSG with a single null transition from the start state (0)
to the final state (1). -/
def fsgNullStart : FsgModel :=
  { n_state := 2, start_state := 0, final_state := 1,
    null_trans := fun s d =>
      if s = 0 ∧ d = 1 then
        some { from_state := 0, to_state := 1, logs2prob := -10, wid := -1 }
      else none }

/-- A decoder environment over `fsgNullStart` with an empty lextree. -/
def envNullStart : FsgDecoderEnv :=
  { fsg := fsgNullStart,
    pnodes := fun _ =>
      { ci_ext := 0, ctxt := [], logs2prob := 0, leaf := true,
        succs := [], fsglink := none },
    rootList := fun _ => [], n_pnode := 0,
    word_str := fun _ => "", is_filler := fun _ => false,
    dict_to_id := fun _ => 0, dict_pronlen := fun _ => 1,
    ctxtSize := 1, silcipid := 0 }

/-- A freshly initialized decoder state (wide beams, empty history and
active lists). -/
def stInit : SearchSt :=
  { frame := -1, bestscore := 0, beam_factor := 1,
    beam := -80, pbeam := -80, wbeam := -80,
    beam_orig := -80, pbeam_orig := -80, wbeam_orig := -80,
    hmms := fun _ => hmmClearVal, pnode_active := [], pnode_active_next := [],
    history := [], bpidx_start := 0, final := false, enters := [] }

/-- The decoder state after `start` and then immediately `finish`, with no
intervening `step`, over `fsgNullStart`. -/
def stStartFinish : SearchSt :=
  fsg_search_finish (fsg_search_start envNullStart stInit)

/-- C7.  Code bug: `start` immediately followed by `finish` is claimed to
yield no hypothesis and no crash.  Over `fsgNullStart`, `fsg_search_start`
null-propagates the dummy entry, appending an entry beyond index 0; the
subsequent `fsg_search_hyp` call (`find_exit(fsgs, fsgs->frame, fsgs->final)`
with `final = true`) then walks the best-exit loop down to the dummy entry,
whose `fsglink` is NULL, and dereferences it: the model returns `crash`
rather than a non-positive index. -/
theorem start_finish_find_exit_crashes :
    fsg_search_find_exit 4 envNullStart.fsg stStartFinish.history
      stStartFinish.frame stStartFinish.frame stStartFinish.final =
      FEResult.crash := by
  decide

/-- A decoder state entering beam adaptation with factor 1 and original
beams -1000. -/
def stOverCap : SearchSt :=
  { frame := 0, bestscore := 0, beam_factor := 1,
    beam := -1000, pbeam := -1000, wbeam := -1000,
    beam_orig := -1000, pbeam_orig := -1000, wbeam_orig := -1000,
    hmms := fun _ => hmmClearVal, pnode_active := [], pnode_active_next := [],
    history := [], bpidx_start := 0, final := false, enters := [] }

/-- `k` consecutive frames whose evaluated-HMM count (6) exceeds the cap
`maxhmmpf = 5`, each running the beam adaptation of
`fsg_search_hmm_eval`. -/
def overCapReps (k : Nat) (st : SearchSt) : SearchSt :=
  (List.range k).foldl (fun s _ => beamAdjust 5 6 s) st

theorem overCapReps_succ (k : Nat) (st : SearchSt) :
    overCapReps (k + 1) st = beamAdjust 5 6 (overCapReps k st) := by
  unfold overCapReps
  rw [List.range_succ, List.foldl_append]
  rfl

theorem beamAdjust_factor_overcap (m n : Int) (st : SearchSt) (h1 : m ≠ -1)
    (h2 : n > m) (h3 : st.beam_factor > 1 / 10) :
    (beamAdjust m n st).beam_factor = st.beam_factor * (9 / 10) := by
  unfold beamAdjust
  rw [if_pos ⟨h1, h2⟩, if_pos h3]

theorem overCapReps_factor (st : SearchSt) (hst : st.beam_factor = 1) :
    ∀ k, k ≤ 22 → (overCapReps k st).beam_factor = ((9 : ℚ) / 10) ^ k := by
  intro k
  induction k with
  | zero =>
    intro _
    simpa [overCapReps] using hst
  | succ k ih =>
    intro hk
    have hfac := ih (by omega)
    have hgt : (overCapReps k st).beam_factor > 1 / 10 := by
      rw [hfac]
      calc (1 : ℚ) / 10 < (9 / 10) ^ 21 := by norm_num
        _ ≤ (9 / 10) ^ k :=
          pow_le_pow_of_le_one (by norm_num) (by norm_num) (by omega)
    rw [overCapReps_succ, beamAdjust_factor_overcap 5 6 _ (by decide) (by decide) hgt,
        hfac, ← pow_succ]

/-- C2 counterexample: after 22 consecutive over-cap frames starting from
factor 1.0, the code's beam factor is `(9/10)^22 ≈ 0.0985 < 0.1` — the
multiplication is gated by `beam_factor > 0.1` but its result is not
clamped, so the claimed floor of 0.1 is crossed. -/
theorem beam_factor_drops_below_tenth :
    (overCapReps 22 stOverCap).beam_factor < 1 / 10 := by
  rw [overCapReps_factor stOverCap rfl 22 le_rfl]
  norm_num

/-- C2.  Amended: on an over-cap frame (`maxhmmpf ≠ -1` and `n > maxhmmpf`)
the beam adaptation multiplies `beam_factor` by 0.9 and rescales the three
live beams only while the factor exceeds 0.1, and leaves the state
untouched once the factor is at or below 0.1; the factor therefore never
falls below 0.09 (= 0.9 × 0.1), not 0.1.  On an at-or-below-cap frame the
factor is reset to 1.0 and the three beams to their originals. -/
theorem beam_adjust_update_spec (m n : Int) (st : SearchSt) :
    ((m ≠ -1 ∧ n > m) →
       ((st.beam_factor > 1 / 10 →
           (beamAdjust m n st).beam_factor = st.beam_factor * (9 / 10) ∧
           (beamAdjust m n st).beam =
             ratTruncToInt ((st.beam_orig : ℚ) * (st.beam_factor * (9 / 10))) ∧
           (beamAdjust m n st).pbeam =
             ratTruncToInt ((st.pbeam_orig : ℚ) * (st.beam_factor * (9 / 10))) ∧
           (beamAdjust m n st).wbeam =
             ratTruncToInt ((st.wbeam_orig : ℚ) * (st.beam_factor * (9 / 10)))) ∧
        (st.beam_factor ≤ 1 / 10 → beamAdjust m n st = st) ∧
        ((9 : ℚ) / 100 ≤ st.beam_factor →
           (9 : ℚ) / 100 ≤ (beamAdjust m n st).beam_factor))) ∧
    (¬ (m ≠ -1 ∧ n > m) →
       (beamAdjust m n st).beam_factor = 1 ∧
       (beamAdjust m n st).beam = st.beam_orig ∧
       (beamAdjust m n st).pbeam = st.pbeam_orig ∧
       (beamAdjust m n st).wbeam = st.wbeam_orig) := by
  constructor
  · intro hcap
    refine ⟨fun h3 => ?_, fun h3 => ?_, fun h9 => ?_⟩
    · unfold beamAdjust
      rw [if_pos hcap, if_pos h3]
      exact ⟨rfl, rfl, rfl, rfl⟩
    · unfold beamAdjust
      rw [if_pos hcap, if_neg (by linarith : ¬ st.beam_factor > 1 / 10)]
    · by_cases h3 : st.beam_factor > 1 / 10
      · rw [beamAdjust_factor_overcap m n st hcap.1 hcap.2 h3]
        nlinarith
      · unfold beamAdjust
        rw [if_pos hcap, if_neg h3]
        exact h9
  · intro hcap
    unfold beamAdjust
    rw [if_neg hcap]
    exact ⟨rfl, rfl, rfl, rfl⟩

/-- C8.  When a dag already exists over the current number of frames,
`fsg_search_lattice` returns it with the state unchanged; and whenever a
call returns a dag, an immediately repeated call (no intervening `step`, so
the frame is unchanged) returns the same dag and the same state.  The
hypothesis is the collaborator contract that `ps_lattice_init_search`
stamps a newly built dag with the decoder's current frame count. -/
theorem lattice_cached_idempotent (build : LatSt → Option LatDag) (st : LatSt)
    (hb : ∀ s d, build s = some d → d.n_frames = s.frame) :
    (∀ d, st.dag = some d → d.n_frames = st.frame →
       fsg_search_lattice build st = (some d, st)) ∧
    (∀ d st2, fsg_search_lattice build st = (some d, st2) →
       fsg_search_lattice build st2 = (some d, st2)) := by
  have hbuild : ∀ d2 s2, fsg_search_lattice_build build st = (some d2, s2) →
      fsg_search_lattice build s2 = (some d2, s2) := by
    intro d2 s2 hb2
    cases hput : build { st with dag := none } with
    | none => simp [fsg_search_lattice_build, hput] at hb2
    | some d3 =>
      simp only [fsg_search_lattice_build, hput, Prod.mk.injEq, Option.some.injEq] at hb2
      obtain ⟨hd3, hs2⟩ := hb2
      subst hd3
      subst hs2
      have hfr : d3.n_frames = st.frame := hb { st with dag := none } d3 hput
      simp [fsg_search_lattice, hfr]
  constructor
  · intro d hd hf
    unfold fsg_search_lattice
    rw [hd]
    simp [hf]
  · intro d st2 h
    cases hdag : st.dag with
    | none =>
      have hred : fsg_search_lattice build st = fsg_search_lattice_build build st := by
        unfold fsg_search_lattice
        rw [hdag]
      rw [hred] at h
      exact hbuild d st2 h
    | some d0 =>
      by_cases hfr : d0.n_frames = st.frame
      · have hred : fsg_search_lattice build st = (some d0, st) := by
          unfold fsg_search_lattice
          rw [hdag]
          simp [hfr]
        rw [hred] at h
        simp only [Prod.mk.injEq, Option.some.injEq] at h
        obtain ⟨hd, hs⟩ := h
        subst hd
        subst hs
        exact hred
      · have hred : fsg_search_lattice build st = fsg_search_lattice_build build st := by
          unfold fsg_search_lattice
          rw [hdag]
          simp [hfr]
        rw [hred] at h
        exact hbuild d st2 h

/-- A lattice build collaborator that always succeeds and stamps the
current frame, with a decoder state carrying no cached dag at frame 3. -/
def latBuildEx : LatSt → Option LatDag :=
  fun s => some { n_frames := s.frame }

theorem lattice_cached_idempotent_witness :
    fsg_search_lattice latBuildEx
        { dag := some { n_frames := 3 }, frame := 3 } =
      (some { n_frames := 3 }, { dag := some { n_frames := 3 }, frame := 3 }) :=
  (lattice_cached_idempotent latBuildEx { dag := some { n_frames := 3 }, frame := 3 }
      (fun s d h => by
        have h2 : ({ n_frames := s.frame } : LatDag) = d := by
          simpa [latBuildEx] using h
        rw [← h2])).1
    { n_frames := 3 } rfl rfl

/-- A registry holding FSGs "A" (id 1, current, with a live lextree and
history binding) and "B" (id 2). -/
def setStEx : FsgSetSt :=
  { fsgs := [("A", 1), ("B", 2)], fsg := some 1, lextree := some 7, hist_fsg := some 1 }

/-- C9 counterexample: selecting the non-current FSG "B" only repoints the
current-FSG pointer; the lextree is not freed and the pointer is not
nulled, contradicting the claim that `fsg_set_select` of a different FSG
invalidates the lextree. -/
theorem select_does_not_invalidate_lextree :
    (fsg_set_select setStEx "B").2.lextree = some 7 ∧
    (fsg_set_select setStEx "B").2.fsg = some 2 := by
  decide

/-- C9.  Amended: removing the currently selected FSG by name deletes it
from the table, frees the lextree, clears the history FSG binding and
nulls the current-FSG pointer; removing a non-current FSG only deletes it
from the table; `fsg_set_select` of a known FSG only repoints the
current-FSG pointer (the stale lextree persists until `reinit` rebuilds
it), leaving lextree and history binding unchanged. -/
theorem fsg_set_remove_select_effects (st : FsgSetSt) (key : String) (f : Nat) :
    (hashLookup st.fsgs key = some f → st.fsg = some f →
       fsg_set_remove_byname st key =
         (some f, { fsgs := hashDelete st.fsgs key, fsg := none,
                    lextree := none, hist_fsg := none })) ∧
    (hashLookup st.fsgs key = some f → st.fsg ≠ some f →
       fsg_set_remove_byname st key =
         (some f, { st with fsgs := hashDelete st.fsgs key })) ∧
    (hashLookup st.fsgs key = some f →
       fsg_set_select st key = (some f, { st with fsg := some f })) := by
  refine ⟨fun hl hcur => ?_, fun hl hcur => ?_, fun hl => ?_⟩
  · unfold fsg_set_remove_byname
    rw [hl]
    simp [hcur]
  · unfold fsg_set_remove_byname
    rw [hl]
    simp [hcur]
  · unfold fsg_set_select
    rw [hl]

/-- C4.  `fsg_search_null_prop` appends to the history exactly the entries
described by the claim: one for each committed entry `e` at index
`bpidx ≥ bpidx_start` and each state `d` with a null transition `l` from
`e`'s destination state, carrying `frame = e.frame`,
`score = e.score + l.logs2prob`, `pred = bpidx`, `lc = e.lc`, `rc = e.rc` —
and an entry is emitted if and only if its score is at least
`bestscore + wbeam`. -/
theorem null_prop_append_characterization (fsg : FsgModel) (bestscore wbeam : Int)
    (bpidxStart : Nat) (hist : List HistEntry) :
    fsg_search_null_prop fsg bestscore wbeam bpidxStart hist =
      hist ++ fsg_search_null_prop_new fsg bestscore wbeam bpidxStart hist ∧
    ∀ x : HistEntry,
      (x ∈ fsg_search_null_prop_new fsg bestscore wbeam bpidxStart hist ↔
        ∃ bpidx e d l, bpidxStart ≤ bpidx ∧ hist.get? bpidx = some e ∧
          d < fsg.n_state ∧ fsg.null_trans (histDest fsg e) d = some l ∧
          bestscore + wbeam ≤ e.score + l.logs2prob ∧
          x = { fsglink := some l, frame := e.frame,
                score := e.score + l.logs2prob, pred := (bpidx : Int),
                lc := e.lc, rc := e.rc }) := by
  refine ⟨rfl, fun x => ⟨fun hx => ?_, fun hx => ?_⟩⟩
  · rw [fsg_search_null_prop_new, List.mem_flatMap] at hx
    obtain ⟨bpidx, hbr, hxin⟩ := hx
    rw [List.mem_range'_1] at hbr
    cases hget : hist.get? bpidx with
    | none => rw [hget] at hxin; simp at hxin
    | some e =>
      rw [hget] at hxin
      rw [List.mem_filterMap] at hxin
      obtain ⟨d, hdr, hfd⟩ := hxin
      rw [List.mem_range] at hdr
      cases hnt : fsg.null_trans (histDest fsg e) d with
      | none => rw [hnt] at hfd; simp at hfd
      | some l =>
        simp only [hnt] at hfd
        by_cases hsc : bestscore + wbeam ≤ e.score + l.logs2prob
        · rw [if_pos hsc] at hfd
          refine ⟨bpidx, e, d, l, hbr.1, hget, hdr, hnt, hsc, ?_⟩
          exact (Option.some_inj.mp hfd).symm
        · rw [if_neg hsc] at hfd
          simp at hfd
  · obtain ⟨bpidx, e, d, l, hble, hget, hd, hnt, hsc, hx⟩ := hx
    have hlt : bpidx < hist.length := by
      by_contra hge
      rw [List.get?_eq_none.mpr (by omega)] at hget
      simp at hget
    rw [fsg_search_null_prop_new, List.mem_flatMap]
    refine ⟨bpidx, ?_, ?_⟩
    · rw [List.mem_range'_1]
      omega
    · rw [hget, List.mem_filterMap]
      refine ⟨d, by rw [List.mem_range]; exact hd, ?_⟩
      simp only [hnt]
      rw [if_pos hsc, hx]

/-- Whether a word id is a filler or a single-phone word per the
dictionary — the right-context policy test of `fsg_search_pnode_exit`. -/
def exitAllRc (env : FsgDecoderEnv) (wid : Int) : Prop :=
  env.is_filler wid = true ∨
    env.dict_pronlen (env.dict_to_id (env.word_str wid)) = 1

instance (env : FsgDecoderEnv) (wid : Int) : Decidable (exitAllRc env wid) := by
  unfold exitAllRc
  infer_instance

/-- C5.  The word exit a leaf emits: the history entry carries the leaf's
arc, the current frame, the HMM's `out_score` and `out_history`, `lc` is
the leaf's phone, and its right-context bitset is all-ones (every phone
below the bitset width is a member) when the word is a filler or has a
one-phone pronunciation, and the leaf's configured `ctxt` otherwise. -/
theorem pnode_exit_entry_fields (env : FsgDecoderEnv) (st : SearchSt) (pid : Nat)
    (fl : FsgLink) (hfl : (env.pnodes pid).fsglink = some fl) :
    ∃ e : HistEntry,
      fsg_search_pnode_exit env st pid = { st with history := st.history ++ [e] } ∧
      e.fsglink = some fl ∧ e.frame = st.frame ∧
      e.score = (st.hmms pid).out_score ∧
      e.pred = (st.hmms pid).out_history ∧
      e.lc = (env.pnodes pid).ci_ext ∧
      (exitAllRc env fl.wid → ∀ i, i < 32 * env.ctxtSize → ctxtTest e.rc i = true) ∧
      (¬ exitAllRc env fl.wid → e.rc = (env.pnodes pid).ctxt) := by
  by_cases hc : exitAllRc env fl.wid
  · refine ⟨{ fsglink := some fl, frame := st.frame, score := (st.hmms pid).out_score,
              pred := (st.hmms pid).out_history, lc := (env.pnodes pid).ci_ext,
              rc := allCtxt env.ctxtSize }, ?_, rfl, rfl, rfl, rfl, rfl,
            fun _ i hi => ctxtTest_allCtxt env.ctxtSize i hi,
            fun hnc => absurd hc hnc⟩
    have hcb : (env.is_filler fl.wid = true ∨
        env.dict_pronlen (env.dict_to_id (env.word_str fl.wid)) = 1) := hc
    simp only [fsg_search_pnode_exit, hfl]
    rw [if_pos hcb]
  · refine ⟨{ fsglink := some fl, frame := st.frame, score := (st.hmms pid).out_score,
              pred := (st.hmms pid).out_history, lc := (env.pnodes pid).ci_ext,
              rc := (env.pnodes pid).ctxt }, ?_, rfl, rfl, rfl, rfl, rfl,
            fun hcc => absurd hcc hc, fun _ => rfl⟩
    have hcb : ¬ (env.is_filler fl.wid = true ∨
        env.dict_pronlen (env.dict_to_id (env.word_str fl.wid)) = 1) := hc
    simp only [fsg_search_pnode_exit, hfl]
    rw [if_neg hcb]

/-- The FSG arc realized by the example leaf below. -/
def flExit : FsgLink :=
  { from_state := 0, to_state := 1, logs2prob := -5, wid := 2 }

/-- An environment whose every pnode is a leaf realizing `flExit`, whose
word is neither a filler nor single-phone. -/
def envExit : FsgDecoderEnv :=
  { fsg := fsgTriv,
    pnodes := fun _ =>
      { ci_ext := 3, ctxt := [8], logs2prob := -2, leaf := true,
        succs := [], fsglink := some flExit },
    rootList := fun _ => [], n_pnode := 1,
    word_str := fun _ => "", is_filler := fun _ => false,
    dict_to_id := fun _ => 0, dict_pronlen := fun _ => 2,
    ctxtSize := 1, silcipid := 0 }

theorem pnode_exit_entry_fields_witness :
    ∃ e : HistEntry,
      fsg_search_pnode_exit envExit stInit 0 =
        { stInit with history := stInit.history ++ [e] } ∧
      e.fsglink = some flExit ∧ e.frame = stInit.frame ∧
      e.score = (stInit.hmms 0).out_score ∧
      e.pred = (stInit.hmms 0).out_history ∧
      e.lc = (envExit.pnodes 0).ci_ext ∧
      (exitAllRc envExit flExit.wid →
        ∀ i, i < 32 * envExit.ctxtSize → ctxtTest e.rc i = true) ∧
      (¬ exitAllRc envExit flExit.wid → e.rc = (envExit.pnodes 0).ctxt) :=
  pnode_exit_entry_fields envExit stInit 0 flExit rfl

/-- Admissibility of a cross-word transition from history entry `e` into a
root pnode: the root's left-context bitset contains `e.lc`, and `e`'s
right-context bitset contains the root's first phone. -/
def crossWordAdmissible (e : HistEntry) (root : FsgPnode) : Prop :=
  ctxtTest root.ctxt e.lc = true ∧ ctxtTest e.rc root.ci_ext = true

/-- What the claim asserts of one recorded root activation, relative to the
state at the start of `fsg_search_word_trans`: it arises from a history
entry of the frame (index at least `bpidx_start`), through a root attached
to that entry's destination state, passing both context bitset tests, with
`newscore = e.score + root.logs2prob` at least `bestscore + beam` and above
the root HMM's entry score. -/
def wtEventOk (env : FsgDecoderEnv) (st0 : SearchSt) (ev : EnterEv) : Prop :=
  ∃ e, st0.history.get? ev.bpidx = some e ∧ st0.bpidx_start ≤ ev.bpidx ∧
    ev.root ∈ env.rootList (histDest env.fsg e) ∧
    crossWordAdmissible e (env.pnodes ev.root) ∧
    ev.newscore = e.score + (env.pnodes ev.root).logs2prob ∧
    st0.bestscore + st0.beam ≤ ev.newscore ∧
    (st0.hmms ev.root).in_score < ev.newscore

/-- The invariant carried through the folds of `fsg_search_word_trans`:
the fields the loop reads are unchanged, entry scores of root HMMs only
grow, and every recorded activation is either old or admissible. -/
def wtInv (env : FsgDecoderEnv) (st0 s : SearchSt) : Prop :=
  s.history = st0.history ∧ s.bpidx_start = st0.bpidx_start ∧
  s.bestscore = st0.bestscore ∧ s.beam = st0.beam ∧
  (∀ i, (st0.hmms i).in_score ≤ (s.hmms i).in_score) ∧
  (∀ ev, ev ∈ s.enters → ev ∈ st0.enters ∨ wtEventOk env st0 ev)

theorem wordTransRoot_wtInv (env : FsgDecoderEnv) (st0 : SearchSt) (bpidx : Nat)
    (e : HistEntry) (s : SearchSt) (rootId : Nat) (hinv : wtInv env st0 s)
    (hb : st0.bpidx_start ≤ bpidx) (he : st0.history.get? bpidx = some e)
    (hr : rootId ∈ env.rootList (histDest env.fsg e)) :
    wtInv env st0 (wordTransRoot env bpidx e s rootId) := by
  obtain ⟨hh, hbp, hbs, hbm, hmono, hev⟩ := hinv
  unfold wordTransRoot
  by_cases hadm : ctxtTest (env.pnodes rootId).ctxt e.lc = true ∧
      ctxtTest e.rc (env.pnodes rootId).ci_ext = true
  · rw [if_pos hadm]
    by_cases hsc : s.bestscore + s.beam ≤ e.score + (env.pnodes rootId).logs2prob ∧
        (s.hmms rootId).in_score < e.score + (env.pnodes rootId).logs2prob
    · rw [if_pos hsc]
      have hok : wtEventOk env st0
          { bpidx := bpidx, root := rootId,
            newscore := e.score + (env.pnodes rootId).logs2prob } := by
        refine ⟨e, he, hb, hr, hadm, rfl, ?_, ?_⟩
        · rw [← hbs, ← hbm]; exact hsc.1
        · exact lt_of_le_of_lt (hmono rootId) hsc.2
      by_cases hfr : (s.hmms rootId).frame < s.frame + 1
      · rw [if_pos hfr]
        refine ⟨hh, hbp, hbs, hbm, fun i => ?_, fun ev hevm => ?_⟩
        · by_cases hi : i = rootId
          · subst hi
            simp only [updFn, if_pos rfl, hmm_enter]
            exact le_of_lt (lt_of_le_of_lt (hmono i) hsc.2)
          · simp only [updFn, if_neg hi]
            exact hmono i
        · rcases List.mem_append.mp hevm with hold | hnew
          · exact hev ev hold
          · right
            rw [List.mem_singleton.mp hnew]
            exact hok
      · rw [if_neg hfr]
        refine ⟨hh, hbp, hbs, hbm, fun i => ?_, fun ev hevm => ?_⟩
        · by_cases hi : i = rootId
          · subst hi
            simp only [updFn, if_pos rfl, hmm_enter]
            exact le_of_lt (lt_of_le_of_lt (hmono i) hsc.2)
          · simp only [updFn, if_neg hi]
            exact hmono i
        · rcases List.mem_append.mp hevm with hold | hnew
          · exact hev ev hold
          · right
            rw [List.mem_singleton.mp hnew]
            exact hok
    · rw [if_neg hsc]
      exact ⟨hh, hbp, hbs, hbm, hmono, hev⟩
  · rw [if_neg hadm]
    exact ⟨hh, hbp, hbs, hbm, hmono, hev⟩

theorem word_trans_wtInv (env : FsgDecoderEnv) (st0 : SearchSt) :
    wtInv env st0 (fsg_search_word_trans env st0) := by
  unfold fsg_search_word_trans
  apply foldl_preserve (wtInv env st0) _ _ st0
    ⟨rfl, rfl, rfl, rfl, fun _ => le_refl _, fun ev hev => Or.inl hev⟩
  intro s bpidx hmem hinv
  rw [List.mem_range'_1] at hmem
  have hh := hinv.1
  rw [hh]
  cases hget : st0.history.get? bpidx with
  | none => exact hinv
  | some e =>
    apply foldl_preserve (wtInv env st0) _ _ s hinv
    intro s2 rootId hrmem hinv2
    exact wordTransRoot_wtInv env st0 bpidx e s2 rootId hinv2 hmem.1 hget hrmem

/-- C3.  Every root activation `fsg_search_word_trans` records is either
pre-existing or admissible: it arises from a new history entry `e` whose
destination-state root list contains the root, both context bitset tests
pass (`root.ctxt` contains `e.lc`, `e.rc` contains `root.ci_ext`), and
`newscore = e.score + root.logs2prob` is at least `bestscore + beam` and
strictly above the root HMM's entry score at the start of the pass (entry
scores only grow during the pass, so it also beat the entry score at the
moment of the `hmm_enter`). -/
theorem word_trans_root_activation_admissible (env : FsgDecoderEnv)
    (st : SearchSt) (ev : EnterEv)
    (hev : ev ∈ (fsg_search_word_trans env st).enters) :
    ev ∈ st.enters ∨ wtEventOk env st ev :=
  (word_trans_wtInv env st).2.2.2.2.2 ev hev

/-- A two-state FSG with no null transitions whose arc into state 1 is
realized by root pnode 0. -/
def envWt : FsgDecoderEnv :=
  { fsg := { n_state := 2, start_state := 0, final_state := 1,
             null_trans := fun _ _ => none },
    pnodes := fun _ =>
      { ci_ext := 2, ctxt := [4], logs2prob := -1, leaf := true,
        succs := [], fsglink := none },
    rootList := fun d => if d = 1 then [0] else [], n_pnode := 1,
    word_str := fun _ => "", is_filler := fun _ => false,
    dict_to_id := fun _ => 0, dict_pronlen := fun _ => 1,
    ctxtSize := 1, silcipid := 0 }

/-- A state holding one fresh history entry into state 1 whose contexts
match root 0. -/
def stWt : SearchSt :=
  { frame := 0, bestscore := 0, beam_factor := 1,
    beam := -100, pbeam := -100, wbeam := -100,
    beam_orig := -100, pbeam_orig := -100, wbeam_orig := -100,
    hmms := fun _ => hmmClearVal, pnode_active := [], pnode_active_next := [],
    history := [{ fsglink := some { from_state := 0, to_state := 1,
                                    logs2prob := -5, wid := 3 },
                  frame := 0, score := 0, pred := -1, lc := 2, rc := [4] }],
    bpidx_start := 0, final := false, enters := [] }

theorem word_trans_root_activation_admissible_witness :
    ({ bpidx := 0, root := 0, newscore := -1 } : EnterEv) ∈ stWt.enters ∨
      wtEventOk envWt stWt { bpidx := 0, root := 0, newscore := -1 } :=
  word_trans_root_activation_admissible envWt stWt
    { bpidx := 0, root := 0, newscore := -1 } (by decide)

/-- The invariant carried through every stage of one `fsg_search_step`
frame body before the final sweep: the frame and current active list are
untouched, and the next-frame active list contains exactly the pnodes
whose HMM was (re-)scheduled for the next frame — no pnode is ever moved
onto the current frame, and none is ever scheduled beyond the next. -/
def stepInv (st0 s : SearchSt) : Prop :=
  s.frame = st0.frame ∧
  s.pnode_active = st0.pnode_active ∧
  (∀ i, ((s.hmms i).frame = st0.frame + 1 ↔ i ∈ s.pnode_active_next)) ∧
  (∀ i, (s.hmms i).frame = st0.frame → (st0.hmms i).frame = st0.frame) ∧
  (∀ i, (s.hmms i).frame ≤ st0.frame + 1)

theorem stepInv_congr (st0 s s2 : SearchSt) (hinv : stepInv st0 s)
    (hframe : s2.frame = s.frame) (hact : s2.pnode_active = s.pnode_active)
    (hhmms : s2.hmms = s.hmms)
    (hnext : s2.pnode_active_next = s.pnode_active_next) :
    stepInv st0 s2 := by
  obtain ⟨h1, h2, h3, h4, h5⟩ := hinv
  exact ⟨hframe.trans h1, hact.trans h2,
    fun i => by rw [hhmms, hnext]; exact h3 i,
    fun i => by rw [hhmms]; exact h4 i,
    fun i => by rw [hhmms]; exact h5 i⟩

theorem stepInv_upd_same_frame (st0 s s2 : SearchSt) (hinv : stepInv st0 s)
    (t : Nat) (hframe : s2.frame = s.frame)
    (hact : s2.pnode_active = s.pnode_active)
    (hnext : s2.pnode_active_next = s.pnode_active_next)
    (hold : ∀ j, j ≠ t → s2.hmms j = s.hmms j)
    (hfr2 : (s2.hmms t).frame = (s.hmms t).frame) :
    stepInv st0 s2 := by
  obtain ⟨h1, h2, h3, h4, h5⟩ := hinv
  have hfr : ∀ j, (s2.hmms j).frame = (s.hmms j).frame := by
    intro j
    by_cases hj : j = t
    · subst hj; exact hfr2
    · rw [hold j hj]
  exact ⟨hframe.trans h1, hact.trans h2,
    fun i => by rw [hfr i, hnext]; exact h3 i,
    fun i => by rw [hfr i]; exact h4 i,
    fun i => by rw [hfr i]; exact h5 i⟩

theorem stepInv_enter (st0 s s2 : SearchSt) (hinv : stepInv st0 s) (t : Nat)
    (hframe : s2.frame = s.frame) (hact : s2.pnode_active = s.pnode_active)
    (hold : ∀ j, j ≠ t → s2.hmms j = s.hmms j)
    (hid : (s2.hmms t).frame = st0.frame + 1)
    (hnext : ∀ j, j ∈ s2.pnode_active_next ↔ (j = t ∨ j ∈ s.pnode_active_next)) :
    stepInv st0 s2 := by
  obtain ⟨h1, h2, h3, h4, h5⟩ := hinv
  refine ⟨hframe.trans h1, hact.trans h2, fun i => ?_, fun i => ?_, fun i => ?_⟩
  · by_cases hi : i = t
    · subst hi
      exact ⟨fun _ => (hnext i).mpr (Or.inl rfl), fun _ => hid⟩
    · rw [hold i hi, hnext i]
      exact ⟨fun hf => Or.inr ((h3 i).mp hf),
        fun hm => (h3 i).mpr (hm.resolve_left hi)⟩
  · by_cases hi : i = t
    · subst hi
      intro hcon
      rw [hid] at hcon
      omega
    · rw [hold i hi]
      exact h4 i
  · by_cases hi : i = t
    · subst hi
      rw [hid]
    · rw [hold i hi]
      exact h5 i


theorem beamAdjust_projections (m n : Int) (s : SearchSt) :
    (beamAdjust m n s).frame = s.frame ∧
    (beamAdjust m n s).pnode_active = s.pnode_active ∧
    (beamAdjust m n s).hmms = s.hmms ∧
    (beamAdjust m n s).pnode_active_next = s.pnode_active_next := by
  unfold beamAdjust
  by_cases hcap : m ≠ -1 ∧ n > m
  · rw [if_pos hcap]
    by_cases h3 : s.beam_factor > 1 / 10
    · rw [if_pos h3]
      exact ⟨rfl, rfl, rfl, rfl⟩
    · rw [if_neg h3]
      exact ⟨rfl, rfl, rfl, rfl⟩
  · rw [if_neg hcap]
    exact ⟨rfl, rfl, rfl, rfl⟩

theorem hmm_eval_stepInv (vitEval : HmmT → HmmT) (maxhmmpf : Int)
    (st0 s : SearchSt) (hvit : ∀ h, (vitEval h).frame = h.frame)
    (hinv : stepInv st0 s) :
    stepInv st0 (fsg_search_hmm_eval vitEval maxhmmpf s) := by
  unfold fsg_search_hmm_eval
  by_cases hemp : s.pnode_active = []
  · rw [if_pos hemp]
    exact hinv
  · rw [if_neg hemp]
    have hfold : stepInv st0
        (s.pnode_active.foldl (evalStep vitEval) (s, WORST_SCORE)).1 := by
      apply foldl_preserve (fun acc : SearchSt × Int => stepInv st0 acc.1) _ _ _ hinv
      intro acc pid _ hinv2
      refine stepInv_upd_same_frame st0 acc.1 _ hinv2 pid ?_ ?_ ?_ ?_ ?_
      · rfl
      · rfl
      · rfl
      · intro j hj
        simp [evalStep, updFn, hj]
      · simp [evalStep, updFn, hvit]
    refine stepInv_congr st0 _ _ hfold ?_ ?_ ?_ ?_
    · exact (beamAdjust_projections _ _ _).1
    · exact (beamAdjust_projections _ _ _).2.1
    · exact (beamAdjust_projections _ _ _).2.2.1
    · exact (beamAdjust_projections _ _ _).2.2.2

theorem pnode_exit_projections (env : FsgDecoderEnv) (s : SearchSt) (pid : Nat) :
    (fsg_search_pnode_exit env s pid).frame = s.frame ∧
    (fsg_search_pnode_exit env s pid).pnode_active = s.pnode_active ∧
    (fsg_search_pnode_exit env s pid).hmms = s.hmms ∧
    (fsg_search_pnode_exit env s pid).pnode_active_next = s.pnode_active_next := by
  cases hl : (env.pnodes pid).fsglink with
  | none => simp [fsg_search_pnode_exit, hl]
  | some fl => simp [fsg_search_pnode_exit, hl]

theorem transChild_stepInv (env : FsgDecoderEnv) (st0 : SearchSt) (h : HmmT)
    (thresh : Int) (s : SearchSt) (childId : Nat) (hinv : stepInv st0 s) :
    stepInv st0 (transChild env h (st0.frame + 1) thresh s childId) := by
  unfold transChild
  by_cases hsc : thresh ≤ h.out_score + (env.pnodes childId).logs2prob ∧
      (s.hmms childId).in_score < h.out_score + (env.pnodes childId).logs2prob
  · rw [if_pos hsc]
    by_cases hfr : (s.hmms childId).frame < st0.frame + 1
    · rw [if_pos hfr]
      refine stepInv_enter st0 s _ hinv childId ?_ ?_ ?_ ?_ ?_
      · rfl
      · rfl
      · intro j hj
        simp [updFn, hj]
      · simp [updFn, hmm_enter]
      · intro j
        exact List.mem_cons
    · rw [if_neg hfr]
      have hmem : childId ∈ s.pnode_active_next := by
        apply (hinv.2.2.1 childId).mp
        have h5 := hinv.2.2.2.2 childId
        omega
      refine stepInv_enter st0 s _ hinv childId ?_ ?_ ?_ ?_ ?_
      · rfl
      · rfl
      · intro j hj
        simp [updFn, hj]
      · simp [updFn, hmm_enter]
      · intro j
        refine ⟨fun hm => Or.inr hm, fun hm => ?_⟩
        rcases hm with hj | hm
        · subst hj
          exact hmem
        · exact hm
  · rw [if_neg hsc]
    exact hinv

theorem pnode_trans_stepInv (env : FsgDecoderEnv) (st0 s : SearchSt) (pid : Nat)
    (hinv : stepInv st0 s) :
    stepInv st0 (fsg_search_pnode_trans env s pid) := by
  unfold fsg_search_pnode_trans
  rw [hinv.1]
  apply foldl_preserve (stepInv st0) _ _ s hinv
  intro s2 childId _ hinv2
  exact transChild_stepInv env st0 (s.hmms pid) (s.bestscore + s.beam) s2 childId hinv2

theorem prunePromote_stepInv (st0 s : SearchSt) (pid : Nat)
    (hinv : stepInv st0 s) :
    stepInv st0 (prunePromote s pid) := by
  unfold prunePromote
  by_cases hpr : (s.hmms pid).frame = s.frame
  · rw [if_pos hpr]
    refine stepInv_enter st0 s _ hinv pid ?_ ?_ ?_ ?_ ?_
    · rfl
    · rfl
    · intro j hj
      simp [updFn, hj]
    · simp [updFn, hinv.1]
    · intro j
      exact List.mem_cons
  · rw [if_neg hpr]
    exact hinv

theorem pruneStep_stepInv (env : FsgDecoderEnv) (st0 s : SearchSt) (pid : Nat)
    (hinv : stepInv st0 s) :
    stepInv st0 (pruneStep env s pid) := by
  unfold pruneStep
  have hp := prunePromote_stepInv st0 s pid hinv
  by_cases hbs : s.bestscore + s.beam ≤ (s.hmms pid).bestscore
  · rw [if_pos hbs]
    by_cases hlf : (env.pnodes pid).leaf = false
    · rw [if_pos hlf]
      split
      · exact pnode_trans_stepInv env st0 _ pid hp
      · exact hp
    · rw [if_neg hlf]
      split
      · refine stepInv_congr st0 (prunePromote s pid) _ hp ?_ ?_ ?_ ?_
        · exact (pnode_exit_projections _ _ _).1
        · exact (pnode_exit_projections _ _ _).2.1
        · exact (pnode_exit_projections _ _ _).2.2.1
        · exact (pnode_exit_projections _ _ _).2.2.2
      · exact hp
  · rw [if_neg hbs]
    exact hinv

theorem prune_prop_stepInv (env : FsgDecoderEnv) (st0 s : SearchSt)
    (hinv : stepInv st0 s) :
    stepInv st0 (fsg_search_hmm_prune_prop env s) := by
  unfold fsg_search_hmm_prune_prop
  apply foldl_preserve (stepInv st0) _ _ s hinv
  intro s2 pid _ hinv2
  exact pruneStep_stepInv env st0 s2 pid hinv2

theorem wordTransRoot_stepInv (env : FsgDecoderEnv) (st0 : SearchSt)
    (bpidx : Nat) (e : HistEntry) (s : SearchSt) (rootId : Nat)
    (hinv : stepInv st0 s) :
    stepInv st0 (wordTransRoot env bpidx e s rootId) := by
  unfold wordTransRoot
  by_cases hadm : ctxtTest (env.pnodes rootId).ctxt e.lc = true ∧
      ctxtTest e.rc (env.pnodes rootId).ci_ext = true
  · rw [if_pos hadm]
    by_cases hsc : s.bestscore + s.beam ≤ e.score + (env.pnodes rootId).logs2prob ∧
        (s.hmms rootId).in_score < e.score + (env.pnodes rootId).logs2prob
    · rw [if_pos hsc]
      by_cases hfr : (s.hmms rootId).frame < s.frame + 1
      · rw [if_pos hfr]
        refine stepInv_enter st0 s _ hinv rootId ?_ ?_ ?_ ?_ ?_
        · rfl
        · rfl
        · intro j hj
          simp [updFn, hj]
        · simp [updFn, hmm_enter, hinv.1]
        · intro j
          exact List.mem_cons
      · rw [if_neg hfr]
        have hmem : rootId ∈ s.pnode_active_next := by
          apply (hinv.2.2.1 rootId).mp
          have h5 := hinv.2.2.2.2 rootId
          have h1 := hinv.1
          omega
        refine stepInv_enter st0 s _ hinv rootId ?_ ?_ ?_ ?_ ?_
        · rfl
        · rfl
        · intro j hj
          simp [updFn, hj]
        · simp [updFn, hmm_enter, hinv.1]
        · intro j
          refine ⟨fun hm => Or.inr hm, fun hm => ?_⟩
          rcases hm with hj | hm
          · subst hj
            exact hmem
          · exact hm
    · rw [if_neg hsc]
      exact hinv
  · rw [if_neg hadm]
    exact hinv

theorem word_trans_stepInv (env : FsgDecoderEnv) (st0 s : SearchSt)
    (hinv : stepInv st0 s) :
    stepInv st0 (fsg_search_word_trans env s) := by
  unfold fsg_search_word_trans
  apply foldl_preserve (stepInv st0) _ _ s hinv
  intro s2 bpidx _ hinv2
  cases hget : s2.history.get? bpidx with
  | none => exact hinv2
  | some e =>
    apply foldl_preserve (stepInv st0) _ _ s2 hinv2
    intro s3 rootId _ hinv3
    exact wordTransRoot_stepInv env st0 bpidx e s3 rootId hinv3

/-- Pointwise characterization of the deactivation sweep: a node's HMM is
cleared exactly when the node is on the list and its HMM is still at the
current frame; everything else is untouched. -/
theorem deact_foldl_spec (L : List Nat) :
    ∀ s : SearchSt, (-1 : Int) ≠ s.frame →
    ((L.foldl deactStep s).hmms = fun i =>
        if i ∈ L ∧ (s.hmms i).frame = s.frame then hmmClearVal else s.hmms i) ∧
    (L.foldl deactStep s).frame = s.frame ∧
    (L.foldl deactStep s).pnode_active = s.pnode_active ∧
    (L.foldl deactStep s).pnode_active_next = s.pnode_active_next := by
  induction L with
  | nil =>
    intro s _
    refine ⟨?_, rfl, rfl, rfl⟩
    funext i
    simp
  | cons a L ih =>
    intro s hne
    rw [List.foldl_cons]
    by_cases ha : (s.hmms a).frame = s.frame
    · have hstep : deactStep s a = { s with hmms := updFn s.hmms a hmmClearVal } := by
        unfold deactStep
        rw [if_pos ha]
      rw [hstep]
      obtain ⟨hh, hf, hpa, hpn⟩ := ih { s with hmms := updFn s.hmms a hmmClearVal } hne
      refine ⟨?_, hf, hpa, hpn⟩
      rw [hh]
      funext i
      by_cases hia : i = a
      · subst hia
        simp [updFn, hmmClearVal, List.mem_cons, ha, hne]
      · simp [updFn, hia, List.mem_cons]
    · have hstep : deactStep s a = s := by
        unfold deactStep
        rw [if_neg ha]
      rw [hstep]
      obtain ⟨hh, hf, hpa, hpn⟩ := ih s hne
      refine ⟨?_, hf, hpa, hpn⟩
      rw [hh]
      funext i
      by_cases hia : i = a
      · subst hia
        simp [List.mem_cons, ha]
      · simp [List.mem_cons, hia]

/-- The frame body of `fsg_search_step` (assuming the standard entry
conditions) leaves the next-frame active list empty only after moving it
into the current list, advances the frame, and leaves the active list
containing exactly the nodes scheduled at the new frame; no node remains
at the old frame. -/
theorem step_frame_spec (env : FsgDecoderEnv) (vitEval : HmmT → HmmT)
    (maxhmmpf : Int) (st : SearchSt)
    (hframe : 0 ≤ st.frame)
    (hvit : ∀ h, (vitEval h).frame = h.frame)
    (hact : ∀ i, ((st.hmms i).frame = st.frame ↔ i ∈ st.pnode_active))
    (hnext : st.pnode_active_next = [])
    (hle : ∀ i, (st.hmms i).frame ≤ st.frame) :
    (fsg_search_step_frame env vitEval maxhmmpf st).pnode_active_next = [] ∧
    (fsg_search_step_frame env vitEval maxhmmpf st).frame = st.frame + 1 ∧
    (∀ i, (((fsg_search_step_frame env vitEval maxhmmpf st).hmms i).frame =
             st.frame + 1 ↔
           i ∈ (fsg_search_step_frame env vitEval maxhmmpf st).pnode_active)) ∧
    (∀ i, ((fsg_search_step_frame env vitEval maxhmmpf st).hmms i).frame ≠
            st.frame) := by
  have hinv1 : stepInv st (markBpidxStart st) := by
    refine ⟨rfl, rfl, fun i => ?_, fun i h => h, fun i => ?_⟩
    · constructor
      · intro hf
        have hf2 : (st.hmms i).frame = st.frame + 1 := hf
        have := hle i
        exfalso
        omega
      · intro hm
        have hm2 : i ∈ st.pnode_active_next := hm
        rw [hnext] at hm2
        cases hm2
    · show (st.hmms i).frame ≤ st.frame + 1
      have := hle i
      omega
  have hinv2 := hmm_eval_stepInv vitEval maxhmmpf st _ hvit hinv1
  have hinv3 := prune_prop_stepInv env st _ hinv2
  have hinv4 : stepInv st
      (nullPropSt env
        (fsg_search_hmm_prune_prop env
          (fsg_search_hmm_eval vitEval maxhmmpf (markBpidxStart st)))) := by
    refine stepInv_congr st _ _ hinv3 ?_ ?_ ?_ ?_ <;> rfl
  have hinv5 := word_trans_stepInv env st _ hinv4
  unfold fsg_search_step_frame fsg_search_step_swap fsg_search_step_deact
  simp only [fsg_history_end_frame]
  set s5 := fsg_search_word_trans env
    (nullPropSt env
      (fsg_search_hmm_prune_prop env
        (fsg_search_hmm_eval vitEval maxhmmpf (markBpidxStart st)))) with hs5
  obtain ⟨hf5, ha5, hiff5, hold5, hle5⟩ := hinv5
  have hne : (-1 : Int) ≠ s5.frame := by
    rw [hf5]
    omega
  obtain ⟨hh6, hf6, ha6, hn6⟩ := deact_foldl_spec s5.pnode_active s5 hne
  refine ⟨?_, ?_, fun i => ?_, fun i => ?_⟩
  · trivial
  · show (s5.pnode_active.foldl deactStep s5).frame + 1 = st.frame + 1
    rw [hf6, hf5]
  · show ((s5.pnode_active.foldl deactStep s5).hmms i).frame = st.frame + 1 ↔
      i ∈ (s5.pnode_active.foldl deactStep s5).pnode_active_next
    rw [hh6, hn6]
    show (if i ∈ s5.pnode_active ∧ (s5.hmms i).frame = s5.frame then hmmClearVal
          else s5.hmms i).frame = st.frame + 1 ↔ i ∈ s5.pnode_active_next
    by_cases hc : i ∈ s5.pnode_active ∧ (s5.hmms i).frame = s5.frame
    · rw [if_pos hc]
      constructor
      · intro hcl
        exfalso
        have hcv : hmmClearVal.frame = (-1 : Int) := rfl
        omega
      · intro hm
        exfalso
        have hfr : (s5.hmms i).frame = st.frame + 1 := (hiff5 i).mpr hm
        have hfr2 : (s5.hmms i).frame = s5.frame := hc.2
        rw [hf5] at hfr2
        omega
    · rw [if_neg hc]
      exact hiff5 i
  · show ((s5.pnode_active.foldl deactStep s5).hmms i).frame ≠ st.frame
    rw [hh6]
    show (if i ∈ s5.pnode_active ∧ (s5.hmms i).frame = s5.frame then hmmClearVal
          else s5.hmms i).frame ≠ st.frame
    by_cases hc : i ∈ s5.pnode_active ∧ (s5.hmms i).frame = s5.frame
    · rw [if_pos hc]
      have hcv : hmmClearVal.frame = (-1 : Int) := rfl
      omega
    · rw [if_neg hc]
      intro hfr
      apply hc
      refine ⟨?_, by rw [hf5]; exact hfr⟩
      rw [ha5]
      exact (hact i).mp (hold5 i hfr)

/-- C6.  After `fsg_search_step` returns 1, the next-frame active list is
empty, the frame has advanced, the active list contains exactly the pnodes
whose HMM frame equals the new current frame, and no pnode's HMM remains
at the old frame (those not carried over were deactivated before the
swap).  Entry conditions: a frame is available, the decoder is past
`start` (frame at least 0), the collaborator Viterbi evaluation does not
touch the HMM frame field, the nodes at the current frame are exactly the
active ones, the next list is empty, and no HMM is scheduled beyond the
current frame. -/
theorem step_active_sets_exact (env : FsgDecoderEnv) (vitEval : HmmT → HmmT)
    (maxhmmpf : Int) (nFeatFrame : Nat) (st : SearchSt)
    (hfeat : nFeatFrame ≠ 0)
    (hframe : 0 ≤ st.frame)
    (hvit : ∀ h, (vitEval h).frame = h.frame)
    (hact : ∀ i, ((st.hmms i).frame = st.frame ↔ i ∈ st.pnode_active))
    (hnext : st.pnode_active_next = [])
    (hle : ∀ i, (st.hmms i).frame ≤ st.frame) :
    (fsg_search_step env vitEval maxhmmpf nFeatFrame st).1 = 1 ∧
    (fsg_search_step env vitEval maxhmmpf nFeatFrame st).2.pnode_active_next = [] ∧
    (fsg_search_step env vitEval maxhmmpf nFeatFrame st).2.frame = st.frame + 1 ∧
    (∀ i, (((fsg_search_step env vitEval maxhmmpf nFeatFrame st).2.hmms i).frame =
             st.frame + 1 ↔
           i ∈ (fsg_search_step env vitEval maxhmmpf nFeatFrame st).2.pnode_active)) ∧
    (∀ i, ((fsg_search_step env vitEval maxhmmpf nFeatFrame st).2.hmms i).frame ≠
            st.frame) := by
  have hred : fsg_search_step env vitEval maxhmmpf nFeatFrame st =
      (1, fsg_search_step_frame env vitEval maxhmmpf st) := by
    unfold fsg_search_step
    rw [if_neg hfeat]
  rw [hred]
  obtain ⟨h1, h2, h3, h4⟩ :=
    step_frame_spec env vitEval maxhmmpf st hframe hvit hact hnext hle
  exact ⟨rfl, h1, h2, h3, h4⟩

/-- A decoder state at frame 0 with nothing active. -/
def stStepW : SearchSt :=
  { stInit with frame := 0 }

theorem step_active_sets_exact_witness :
    (fsg_search_step envNullStart id 5 1 stStepW).1 = 1 ∧
    (fsg_search_step envNullStart id 5 1 stStepW).2.pnode_active_next = [] :=
  ⟨(step_active_sets_exact envNullStart id 5 1 stStepW (by decide) (by decide)
      (fun _ => rfl)
      (by intro i; show ((-1 : Int) = 0 ↔ i ∈ ([] : List Nat)); simp)
      rfl (by intro i; show ((-1 : Int) ≤ 0); decide)).1,
   (step_active_sets_exact envNullStart id 5 1 stStepW (by decide) (by decide)
      (fun _ => rfl)
      (by intro i; show ((-1 : Int) = 0 ↔ i ∈ ([] : List Nat)); simp)
      rfl (by intro i; show ((-1 : Int) ≤ 0); decide)).2.1⟩
